import Mathlib

/-! Letter-frequency counter (`src/src/freq.c`).

A shallow embedding of `count_frequencies(FILE *stream, int *counts)` and of the
parts of the C library it calls (`fgetc`, `isalpha`, `tolower`), followed by the
properties of the routine.

Conventions of the embedding:

* a data byte is an `unsigned char`, a value in `0..255` (`Byte`);
* a C `int` is 32 bits wide; a value of type `int` is an `Int`, and the result of
  the increment `counts[k]++` is brought back into `-2^31 .. 2^31 - 1` by `wrapInt`
  (signed overflow is undefined in ISO C; the embedding gives it the two's
  complement result that the usual compilers produce);
* a pointer argument is an `Option`: `none` is `NULL`;
* the object `counts` points to is a `List Int`, and a write outside of it is the
  fault `Outcome.outOfBounds`;
* `isalpha` and `tolower` are those of the "C" locale, which is the locale of a
  program that never calls `setlocale` (the repository never does).
-/

namespace Freq

/-! ## Data model -/

/-- An `unsigned char`: what one successful read delivers. -/
abbrev Byte := Fin 256

/-- The value `EOF` of `<stdio.h>`. -/
def EOF : Int := -1

/-- The letter `'a'` as an `int`. -/
def chr_a : Int := 97

/-- The number of slots the header asks of `counts`. -/
def TABLE_SIZE : Nat := 26

/-- A readable stream: the bytes behind it, the read position, and the offset (if
any) at which the device answers a read with an error instead of a byte. -/
structure FILE where
  data : List Byte
  pos : Nat
  failAt : Option Nat
  deriving DecidableEq

/-- The stream the test harness builds with `fmemopen(buf, len, "r")`: positioned at
offset 0 of an in-memory buffer, which never reports a device error. -/
def fmemopen (buf : List Byte) : FILE :=
  { data := buf, pos := 0, failAt := none }

/-- The `fgetc` of `<stdio.h>`: the next byte as an `int` in `0..255` and the position
advanced by one, or `EOF` with the position unchanged when no byte is left or the
device fails at this offset. -/
def fgetc (stream : FILE) : Int × FILE :=
  if stream.failAt = some stream.pos then (EOF, stream)
  else
    match stream.data.get? stream.pos with
    | some b => ((b.val : Int), { stream with pos := stream.pos + 1 })
    | none => (EOF, stream)

/-- The `isalpha` of `<ctype.h>` in the "C" locale: true exactly on `'A'..'Z'` and
`'a'..'z'`. -/
def isalpha (c : Int) : Bool :=
  (65 ≤ c && c ≤ 90) || (97 ≤ c && c ≤ 122)

/-- The `tolower` of `<ctype.h>` in the "C" locale: `'A'..'Z'` go to `'a'..'z'`, every
other value is returned unchanged. -/
def tolower (c : Int) : Int :=
  if 65 ≤ c ∧ c ≤ 90 then c + 32 else c

/-- The value a 32-bit `int` holds after an arithmetic result `x` is stored in it. -/
def wrapInt (x : Int) : Int :=
  (x + 2147483648) % 4294967296 - 2147483648

/-- The read `counts[i]`: `none` when `i` is outside the object. -/
def load (counts : List Int) (i : Int) : Option Int :=
  if 0 ≤ i ∧ i < counts.length then counts.get? i.toNat else none

/-- The write `counts[i] = v`: `none` when `i` is outside the object. -/
def store (counts : List Int) (i : Int) (v : Int) : Option (List Int) :=
  if 0 ≤ i ∧ i < counts.length then some (counts.set i.toNat v) else none

/-- The statement `counts[i]++`. -/
def increment (counts : List Int) (i : Int) : Option (List Int) :=
  match load counts i with
  | some v => store counts i (wrapInt (v + 1))
  | none => none

/-- What a call of `count_frequencies` ends in. -/
inductive Outcome where
  /-- The call returned; the two objects the arguments point to are as given. -/
  | returned (stream : Option FILE) (counts : Option (List Int))
  /-- The call wrote or read outside the `counts` object. -/
  | outOfBounds
  /-- The loop was still running when the step budget ran out. -/
  | outOfFuel
  deriving DecidableEq

/-! ## The routine -/

/-- Lines 10-12: `for (int i = 0; i < 26; i++) counts[i] = 0;`. -/
def zeroLoop (counts : List Int) : Option (List Int) :=
  (List.range TABLE_SIZE).foldlM (fun cs (i : Nat) => store cs (i : Int) 0) counts

/-- Lines 15-19, the body run for one value `c != EOF` returned by `fgetc`. -/
def loopBody (c : Int) (counts : List Int) : Option (List Int) :=
  if isalpha c then increment counts (tolower c - chr_a) else some counts

/-- Lines 14-19: `while ((c = fgetc(stream)) != EOF) { ... }`, run for at most `fuel`
reads. -/
def whileLoop : Nat → FILE → List Int → Outcome
  | 0, _, _ => Outcome.outOfFuel
  | fuel + 1, stream, counts =>
    let r := fgetc stream
    if r.1 ≠ EOF then
      match loopBody r.1 counts with
      | some counts1 => whileLoop fuel r.2 counts1
      | none => Outcome.outOfBounds
    else Outcome.returned (some r.2) (some counts)

/-- The number of reads after which the loop on `stream` has certainly met `EOF`: one
per byte still unread, and the read that returns `EOF`. -/
def readBudget (stream : FILE) : Nat :=
  stream.data.length - stream.pos + 1

/-- The function `count_frequencies` of `src/src/freq.c`. -/
def count_frequencies (stream : Option FILE) (counts : Option (List Int)) : Outcome :=
  match stream, counts with
  | some f, some cs =>
    match zeroLoop cs with
    | some zeroed => whileLoop (readBudget f) f zeroed
    | none => Outcome.outOfBounds
  | _, _ => Outcome.returned stream counts

/-! ## Vocabulary of the properties -/

/-- The byte is the lowercase letter `'a' + i` or the uppercase letter `'A' + i`. -/
def isLetter (i : Nat) (b : Byte) : Bool :=
  b.val == 97 + i || b.val == 65 + i

/-- The byte is an ASCII letter, `'A'..'Z'` or `'a'..'z'`. -/
def isAsciiAlpha (b : Byte) : Bool :=
  (65 ≤ b.val && b.val ≤ 90) || (97 ≤ b.val && b.val ≤ 122)

/-- How many bytes of `s` are the letter of slot `i`, in either case. -/
def occurrences (i : Nat) (s : List Byte) : Nat :=
  s.countP (isLetter i)

/-- The bytes of a string literal of the C source (ASCII text). -/
def bytesOf (text : String) : List Byte :=
  text.toList.map (fun ch => Fin.ofNat ch.toNat)

/-- The table of a caller that declared `int counts[26] = {0};`. -/
def zeroTable : List Int := List.replicate 26 0

/-- The bytes a loop of `fgetc` calls obtains from `stream` before the first `EOF`:
those from the read position up to the end of the data or to the failing offset. -/
def readable (stream : FILE) : List Byte :=
  match stream.failAt with
  | some k =>
    if stream.pos ≤ k then (stream.data.drop stream.pos).take (k - stream.pos)
    else stream.data.drop stream.pos
  | none => stream.data.drop stream.pos

/-- The stream once the bytes of `readable` have been read from it. -/
def drained (stream : FILE) : FILE :=
  { stream with pos := stream.pos + (readable stream).length }

/-- The table in which slot `i` holds the number of occurrences of letter `i` in `s`,
as a 32-bit `int` holds it. -/
def histogram (s : List Byte) : List Int :=
  (List.range TABLE_SIZE).map (fun i => wrapInt (occurrences i s))

/-- The table `counts` points to when the call returns; `none` if it did not return
or `counts` was `NULL`. -/
def Outcome.table : Outcome → Option (List Int)
  | Outcome.returned _ counts => counts
  | _ => none

/-- The value of `counts[i]` when the call returns. -/
def Outcome.slot (o : Outcome) (i : Nat) : Option Int :=
  match o.table with
  | some cs => cs.get? i
  | none => none

/-- The byte with an ASCII lowercase letter replaced by the uppercase one. -/
def upperByte (b : Byte) : Byte :=
  if 97 ≤ b.val ∧ b.val ≤ 122 then ⟨b.val - 32, by omega⟩ else b

/-- The byte with an ASCII uppercase letter replaced by the lowercase one. -/
def lowerByte (b : Byte) : Byte :=
  if h : 65 ≤ b.val ∧ b.val ≤ 90 then ⟨b.val + 32, by omega⟩ else b

/-- One byte `'a'`. -/
def byte_a : Byte := 97

/-- One byte `'Z'`. -/
def byte_Z : Byte := 90

/-- The state of the loop of lines 14-19 (the stream and the table) once its body has
run `k` times; `none` when the loop has left or faulted before that. -/
def loopState : Nat → FILE → List Int → Option (FILE × List Int)
  | 0, stream, counts => some (stream, counts)
  | k + 1, stream, counts =>
    let r := fgetc stream
    if r.1 ≠ EOF then
      match loopBody r.1 counts with
      | some counts1 => loopState k r.2 counts1
      | none => none
    else none

/-- The stream `stream` with its read position at offset `k`. -/
def atOffset (stream : FILE) (k : Nat) : FILE :=
  { stream with pos := k }

/-- The largest value of a 32-bit `int`. -/
def INT_MAX : Int := 2147483647

/-- One byte of value `0xFF`. -/
def byte_FF : Byte := 255

/-- A stream over the bytes `buf`, at offset 0, whose device answers the read at offset
`k` with an error. -/
def failingStream (buf : List Byte) (k : Nat) : FILE :=
  { data := buf, pos := 0, failAt := some k }

end Freq

open Freq

/-! ## Arithmetic of the 32-bit counter -/

theorem wrapInt_of_small (n : Nat) (h : n < 2147483648) : wrapInt (n : Int) = n := by
  unfold wrapInt
  omega

theorem wrapInt_succ (x : Int) : wrapInt (wrapInt x + 1) = wrapInt (x + 1) := by
  unfold wrapInt
  omega

/-! ## The zeroing loop -/

theorem store_in_range (cs : List Int) (k : Nat) (v : Int) (h : k < cs.length) :
    store cs (k : Int) v = some (cs.set k v) := by
  unfold store
  have h1 : (0 : Int) ≤ (k : Int) ∧ (k : Int) < (cs.length : Int) := by omega
  simp [h1]

theorem zero_steps (n : Nat) (cs : List Int) (h : n ≤ cs.length) :
    (List.range n).foldlM (fun acc (i : Nat) => store acc (i : Int) 0) cs
      = some (List.replicate n 0 ++ cs.drop n) := by
  induction n with
  | zero => simp
  | succ n ih =>
    have hn : n < cs.length := by omega
    rw [List.range_succ, List.foldlM_append, ih (by omega)]
    have hlen : n < (List.replicate n (0 : Int) ++ cs.drop n).length := by
      simp; omega
    simp only [List.foldlM_cons, List.foldlM_nil, Option.some_bind, Option.bind_eq_bind]
    rw [store_in_range _ _ _ hlen]
    simp only [Option.some_bind, Option.bind_eq_bind, pure, Option.some.injEq]
    rw [List.replicate_succ', List.append_assoc, List.set_append_right _ _ (by simp)]
    simp only [List.length_replicate, Nat.sub_self]
    rw [List.drop_eq_getElem_cons hn]
    rfl

theorem zeroLoop_eq (cs : List Int) (h : cs.length = 26) :
    zeroLoop cs = some (List.replicate 26 0) := by
  unfold zeroLoop TABLE_SIZE
  rw [zero_steps 26 cs (by omega)]
  simp [List.drop_of_length_le (le_of_eq h)]

/-! ## One pass of the loop body -/

theorem histogram_length (s : List Byte) : (histogram s).length = 26 := by
  simp [histogram, TABLE_SIZE]

theorem histogram_nil : histogram [] = List.replicate 26 0 := by
  decide

theorem occurrences_snoc (j : Nat) (p : List Byte) (b : Byte) :
    occurrences j (p ++ [b]) = occurrences j p + (if isLetter j b = true then 1 else 0) := by
  simp [occurrences, List.countP_append, List.countP_cons]

theorem alpha_index (b : Byte) (h : isalpha (b.val : Int) = true) :
    ∃ k : Nat, k < 26 ∧ tolower (b.val : Int) - chr_a = (k : Int) ∧
      ∀ j, j < 26 → (isLetter j b = true ↔ k = j) := by
  have hb := b.isLt
  simp only [isalpha, Bool.or_eq_true, Bool.and_eq_true, decide_eq_true_eq] at h
  by_cases hu : (65 : Int) ≤ (b.val : Int) ∧ (b.val : Int) ≤ 90
  · refine ⟨b.val - 65, by omega, ?_, ?_⟩
    · simp only [tolower, hu, and_self, if_true, chr_a]
      omega
    · intro j hj
      simp only [isLetter, Bool.or_eq_true, beq_iff_eq]
      omega
  · refine ⟨b.val - 97, by omega, ?_, ?_⟩
    · simp only [tolower, hu, if_false, chr_a]
      omega
    · intro j hj
      simp only [isLetter, Bool.or_eq_true, beq_iff_eq]
      omega

theorem other_byte_no_letter (b : Byte) (h : isalpha (b.val : Int) = false) (j : Nat)
    (hj : j < 26) : isLetter j b = false := by
  have hb := b.isLt
  simp only [isalpha, Bool.or_eq_false_iff, Bool.and_eq_false_iff, decide_eq_false_iff_not] at h
  cases hl : isLetter j b with
  | false => rfl
  | true =>
    simp only [isLetter, Bool.or_eq_true, beq_iff_eq] at hl
    omega

theorem loopBody_histogram (p : List Byte) (b : Byte) :
    loopBody (b.val : Int) (histogram p) = some (histogram (p ++ [b])) := by
  unfold loopBody
  cases h : isalpha (b.val : Int) with
  | false =>
    simp only [Bool.false_eq_true, if_false, Option.some.injEq]
    unfold histogram
    apply List.map_congr_left
    intro j hj
    rw [occurrences_snoc, other_byte_no_letter b h j (by simpa [TABLE_SIZE] using hj)]
    simp
  | true =>
    obtain ⟨k, hk, hidx, hlet⟩ := alpha_index b h
    simp only [if_true, hidx]
    have hlen := histogram_length p
    have hload : load (histogram p) (k : Int) = some (wrapInt (occurrences k p)) := by
      have h1 : (0 : Int) ≤ (k : Int) ∧ (k : Int) < ((histogram p).length : Int) := by omega
      simp only [load, h1, and_self, if_true, Int.toNat_ofNat]
      simp [histogram, TABLE_SIZE, List.getElem?_range, hk]
    simp only [increment, hload]
    rw [store_in_range _ _ _ (by omega)]
    congr 1
    apply List.ext_getElem
    · simp [histogram_length]
    · intro j h1 h2
      have hj : j < 26 := by simpa [histogram_length] using h2
      rw [List.getElem_set]
      simp only [histogram, List.getElem_map, List.getElem_range, occurrences_snoc]
      by_cases hkj : k = j
      · subst hkj
        simp only [if_true, (hlet k hk).2 rfl, Nat.cast_add, Nat.cast_one]
        exact wrapInt_succ _
      · have hnl : isLetter j b = false := by
          cases hl : isLetter j b with
          | false => rfl
          | true => exact absurd ((hlet j hj).1 hl) hkj
        simp [hkj, hnl]

/-! ## Reading the stream -/

theorem readable_length_le (f : FILE) : (readable f).length ≤ f.data.length - f.pos := by
  unfold readable
  split
  · split
    · simp only [List.length_take, List.length_drop]
      omega
    · simp
  · simp

theorem fgetc_of_readable_nil (f : FILE) (h : readable f = []) : fgetc f = (EOF, f) := by
  unfold readable at h
  unfold fgetc
  by_cases hfa : f.failAt = some f.pos
  · simp [hfa]
  · have hdrop : f.data.drop f.pos = [] := by
      cases hk : f.failAt with
      | none => simpa [hk] using h
      | some k =>
        rw [hk] at h hfa
        simp only [Option.some.injEq] at hfa
        by_cases hle : f.pos ≤ k
        · simp only [hle, if_true, List.take_eq_nil_iff] at h
          rcases h with h | h
          · omega
          · exact h
        · simpa [hle] using h
    have hlen : f.data.length ≤ f.pos := by simpa using hdrop
    have hnone : f.data[f.pos]? = none := List.getElem?_eq_none_iff.mpr hlen
    simp [hfa, hnone]

theorem fgetc_of_readable_cons (f : FILE) (b : Byte) (rest : List Byte)
    (h : readable f = b :: rest) :
    fgetc f = ((b.val : Int), { f with pos := f.pos + 1 }) ∧
      readable { f with pos := f.pos + 1 } = rest := by
  have hlt : f.pos < f.data.length := by
    have := readable_length_le f
    rw [h] at this
    simp at this
    omega
  have hdrop := List.drop_eq_getElem_cons hlt
  unfold readable at h
  unfold fgetc readable
  cases hk : f.failAt with
  | none =>
    rw [hk] at h
    simp only at h
    rw [hdrop] at h
    simp only [List.cons.injEq] at h
    simp [List.getElem?_eq_getElem hlt, h.1, h.2]
  | some k =>
    rw [hk] at h
    simp only at h
    by_cases hle : f.pos ≤ k
    · simp only [hle, if_true] at h
      have hne : k ≠ f.pos := by
        intro he
        rw [he] at h
        simp at h
      obtain ⟨m, hm⟩ : ∃ m, k - f.pos = m + 1 := ⟨k - f.pos - 1, by omega⟩
      rw [hm, hdrop, List.take_succ_cons] at h
      simp only [List.cons.injEq] at h
      have hle1 : f.pos + 1 ≤ k := by omega
      have hm1 : k - (f.pos + 1) = m := by omega
      simp [hne, List.getElem?_eq_getElem hlt, h.1, h.2, hle1, hm1]
    · simp only [hle, if_false] at h
      rw [hdrop] at h
      simp only [List.cons.injEq] at h
      have hne : k ≠ f.pos := by omega
      have hle1 : ¬ f.pos + 1 ≤ k := by omega
      simp [hne, List.getElem?_eq_getElem hlt, h.1, h.2, hle1]

theorem byte_ne_EOF (b : Byte) : ((b.val : Int) ≠ EOF) := by
  unfold EOF
  omega

/-- The loop invariant: started on the table of the bytes `p` read so far, the loop
returns the table of `p` followed by the bytes still readable, with the stream
drained, whenever the budget exceeds the number of readable bytes. -/
theorem whileLoop_histogram (fuel : Nat) (f : FILE) (p : List Byte)
    (h : (readable f).length < fuel) :
    whileLoop fuel f (histogram p)
      = Outcome.returned (some (drained f)) (some (histogram (p ++ readable f))) := by
  induction fuel generalizing f p with
  | zero => omega
  | succ fuel ih =>
    cases hr : readable f with
    | nil =>
      have hd : drained f = f := by
        simp [drained, hr]
      simp [whileLoop, fgetc_of_readable_nil f hr, hd]
    | cons b rest =>
      obtain ⟨hg, hrest⟩ := fgetc_of_readable_cons f b rest hr
      have hlen : (readable { f with pos := f.pos + 1 }).length < fuel := by
        rw [hrest]
        rw [hr] at h
        simp at h
        omega
      have hd : drained { f with pos := f.pos + 1 } = drained f := by
        simp only [drained, hrest, hr, List.length_cons]
        congr 1
        omega
      simp only [whileLoop, hg, ne_eq, byte_ne_EOF b, not_false_eq_true, if_true,
        loopBody_histogram]
      rw [ih _ _ hlen, hrest, hd, List.append_assoc]
      rfl

/-- The closed form of a call with both arguments present and a 26-slot table. -/
theorem count_frequencies_eq (f : FILE) (cs : List Int) (h : cs.length = 26) :
    count_frequencies (some f) (some cs)
      = Outcome.returned (some (drained f)) (some (histogram (readable f))) := by
  have hb : (readable f).length < readBudget f := by
    have := readable_length_le f
    unfold readBudget
    omega
  simp only [count_frequencies, zeroLoop_eq cs h]
  rw [← histogram_nil, whileLoop_histogram _ _ _ hb]
  simp

theorem readable_fmemopen (s : List Byte) : readable (fmemopen s) = s := by
  simp [readable, fmemopen]

theorem table_fmemopen (s : List Byte) (cs : List Int) (h : cs.length = 26) :
    (count_frequencies (some (fmemopen s)) (some cs)).table = some (histogram s) := by
  rw [count_frequencies_eq _ _ h, readable_fmemopen]
  rfl

/-! ## Consequences of the closed form -/

theorem slot_fmemopen (s : List Byte) (cs : List Int) (h : cs.length = 26) (i : Nat)
    (hi : i < 26) :
    (count_frequencies (some (fmemopen s)) (some cs)).slot i
      = some (wrapInt (occurrences i s)) := by
  unfold Outcome.slot
  rw [table_fmemopen s cs h]
  simp [histogram, TABLE_SIZE, List.getElem?_range, hi]

theorem histogram_congr (s t : List Byte)
    (h : ∀ i, i < 26 → occurrences i s = occurrences i t) : histogram s = histogram t := by
  unfold histogram
  apply List.map_congr_left
  intro i hi
  rw [h i (by simpa [TABLE_SIZE] using hi)]

theorem occurrences_replicate (i n : Nat) (b : Byte) :
    occurrences i (List.replicate n b) = if isLetter i b = true then n else 0 := by
  unfold occurrences
  rw [List.countP_replicate]

/-! ## C1: what each slot holds -/

/-- C1, as stated, fails on a stream of 2^31 bytes `'a'`: the letter occurs
2147483648 times, and slot 0 of the table ends at -2147483648. -/
theorem C1_counterexample :
    occurrences 0 (List.replicate 2147483648 byte_a) = 2147483648 ∧
    (count_frequencies (some (fmemopen (List.replicate 2147483648 byte_a)))
        (some zeroTable)).slot 0 = some (-2147483648) := by
  have hocc : occurrences 0 (List.replicate 2147483648 byte_a) = 2147483648 := by
    rw [occurrences_replicate]
    rfl
  refine ⟨hocc, ?_⟩
  rw [slot_fmemopen _ _ (by decide) 0 (by decide), hocc]
  decide

/-- C1, amended: for every byte sequence `s` supplied as the stream, every incoming
content of the 26-slot table and every index `i` in 0..25 whose letter occurs fewer
than 2^31 times in `s`, the call returns and `counts[i]` is the number of bytes of `s`
equal to `'a' + i` or to `'A' + i`. -/
theorem C1_slot_is_letter_count (s : List Byte) (counts : List Int)
    (hlen : counts.length = 26) (i : Nat) (hi : i < 26)
    (hfit : occurrences i s < 2147483648) :
    (count_frequencies (some (fmemopen s)) (some counts)).slot i
      = some ((occurrences i s : Nat) : Int) := by
  rw [slot_fmemopen s counts hlen i hi, wrapInt_of_small _ hfit]

theorem C1_slot_is_letter_count_witness :
    (count_frequencies (some (fmemopen (bytesOf "Hello World! 123."))) (some zeroTable)).slot 11
      = some ((occurrences 11 (bytesOf "Hello World! 123.") : Nat) : Int) :=
  C1_slot_is_letter_count (bytesOf "Hello World! 123.") zeroTable (by decide) 11 (by decide)
    (by decide)

/-! ## C2: the incoming contents of the table -/

/-- C2: the result does not depend on the incoming contents of `counts`: on the same
byte sequence two 26-slot tables `c1` and `c2` end in the same outcome, which is a
return with a table; and a call on `s1` followed by a call on `s2` with the same
container leaves the table of a single call on `s2` with a fresh container. -/
theorem C2_incoming_contents_irrelevant (s1 s2 : List Byte) (c1 c2 : List Int)
    (h1 : c1.length = 26) (h2 : c2.length = 26) :
    (count_frequencies (some (fmemopen s2)) (some c1)
        = count_frequencies (some (fmemopen s2)) (some c2)) ∧
    (∃ t, (count_frequencies (some (fmemopen s2)) (some c1)).table = some t) ∧
    (∃ t1 t2, (count_frequencies (some (fmemopen s1)) (some c1)).table = some t1 ∧
      (count_frequencies (some (fmemopen s2)) (some t1)).table = some t2 ∧
      (count_frequencies (some (fmemopen s2)) (some c2)).table = some t2) := by
  refine ⟨?_, ⟨histogram s2, table_fmemopen s2 c1 h1⟩, histogram s1, histogram s2, ?_, ?_, ?_⟩
  · rw [count_frequencies_eq _ _ h1, count_frequencies_eq _ _ h2]
  · exact table_fmemopen s1 c1 h1
  · exact table_fmemopen s2 _ (histogram_length s1)
  · exact table_fmemopen s2 c2 h2

theorem C2_incoming_contents_irrelevant_witness :
    (count_frequencies (some (fmemopen (bytesOf "ab"))) (some (List.replicate 26 7))
        = count_frequencies (some (fmemopen (bytesOf "ab"))) (some zeroTable)) ∧
    (∃ t, (count_frequencies (some (fmemopen (bytesOf "ab")))
        (some (List.replicate 26 7))).table = some t) ∧
    (∃ t1 t2, (count_frequencies (some (fmemopen (bytesOf "zz")))
        (some (List.replicate 26 7))).table = some t1 ∧
      (count_frequencies (some (fmemopen (bytesOf "ab"))) (some t1)).table = some t2 ∧
      (count_frequencies (some (fmemopen (bytesOf "ab"))) (some zeroTable)).table = some t2) :=
  C2_incoming_contents_irrelevant (bytesOf "zz") (bytesOf "ab") (List.replicate 26 7) zeroTable
    (by decide) (by decide)

/-! ## C3: absent arguments -/

/-- C3: with the stream absent or the table absent the call returns and changes
nothing: a supplied table is returned with all its incoming values, a supplied stream
with its data and read position as they were. -/
theorem C3_null_is_noop (stream : Option FILE) (counts : Option (List Int)) :
    count_frequencies none counts = Outcome.returned none counts ∧
    count_frequencies stream none = Outcome.returned stream none := by
  constructor
  · cases counts <;> rfl
  · cases stream <;> rfl

/-! ## C4: bytes that are not letters -/

theorem occurrences_filter_alpha (i : Nat) (hi : i < 26) (s : List Byte) :
    occurrences i (s.filter isAsciiAlpha) = occurrences i s := by
  unfold occurrences
  rw [List.countP_filter]
  apply List.countP_congr
  intro b _
  have hb := b.isLt
  simp only [isLetter, isAsciiAlpha, Bool.and_eq_true, Bool.or_eq_true, beq_iff_eq,
    decide_eq_true_eq]
  omega

/-- C4: bytes that are not ASCII letters are ignored: for every byte sequence `s` (of
byte values 0..255) and every 26-slot table, the call on `s` and the call on `s`
without its bytes outside `'A'..'Z'` and `'a'..'z'` return the same table. -/
theorem C4_non_letters_ignored (s : List Byte) (counts : List Int)
    (hlen : counts.length = 26) :
    ∃ t, (count_frequencies (some (fmemopen s)) (some counts)).table = some t ∧
      (count_frequencies (some (fmemopen (s.filter isAsciiAlpha))) (some counts)).table
        = some t := by
  refine ⟨histogram s, table_fmemopen s counts hlen, ?_⟩
  rw [table_fmemopen _ counts hlen]
  exact congrArg some (histogram_congr _ _ (fun i hi => occurrences_filter_alpha i hi s))

theorem C4_non_letters_ignored_witness :
    ∃ t, (count_frequencies (some (fmemopen [72, 105, 33, 10, 200, 255, 0, 49]))
        (some zeroTable)).table = some t ∧
      (count_frequencies (some (fmemopen
        (List.filter isAsciiAlpha [72, 105, 33, 10, 200, 255, 0, 49])))
        (some zeroTable)).table = some t :=
  C4_non_letters_ignored [72, 105, 33, 10, 200, 255, 0, 49] zeroTable (by decide)

/-! ## C5: upper and lower case -/

theorem isLetter_upperByte (i : Nat) (hi : i < 26) (b : Byte) :
    isLetter i (upperByte b) = isLetter i b := by
  have hb := b.isLt
  rw [Bool.eq_iff_iff]
  unfold upperByte
  split
  · simp only [isLetter, Bool.or_eq_true, beq_iff_eq]
    omega
  · rfl

theorem isLetter_lowerByte (i : Nat) (hi : i < 26) (b : Byte) :
    isLetter i (lowerByte b) = isLetter i b := by
  have hb := b.isLt
  rw [Bool.eq_iff_iff]
  unfold lowerByte
  split
  · simp only [isLetter, Bool.or_eq_true, beq_iff_eq]
    omega
  · rfl

theorem occurrences_map (g : Byte → Byte) (i : Nat)
    (hg : ∀ b, isLetter i (g b) = isLetter i b) (s : List Byte) :
    occurrences i (s.map g) = occurrences i s := by
  unfold occurrences
  rw [List.countP_map]
  apply List.countP_congr
  intro b _
  simp [hg b]

/-- C5: counting is case-insensitive: for every byte sequence `s` and 26-slot table,
the call returns the same table on `s`, on `s` with every ASCII letter made uppercase
and on `s` with every ASCII letter made lowercase; `"AAaa"` gives `counts[0] = 4`, and
`"AaAaBbBb"` gives a = 4, b = 4 and 0 for every other letter. -/
theorem C5_case_insensitive (s : List Byte) (counts : List Int)
    (hlen : counts.length = 26) :
    (∃ t, (count_frequencies (some (fmemopen s)) (some counts)).table = some t ∧
      (count_frequencies (some (fmemopen (s.map upperByte))) (some counts)).table = some t ∧
      (count_frequencies (some (fmemopen (s.map lowerByte))) (some counts)).table = some t) ∧
    (count_frequencies (some (fmemopen (bytesOf "AAaa"))) (some counts)).slot 0 = some 4 ∧
    (count_frequencies (some (fmemopen (bytesOf "AaAaBbBb"))) (some counts)).table
      = some [4, 4, 0, 0, 0, 0, 0, 0, 0, 0, 0, 0, 0, 0, 0, 0, 0, 0, 0, 0, 0, 0, 0, 0, 0, 0] := by
  refine ⟨⟨histogram s, table_fmemopen s counts hlen, ?_, ?_⟩, ?_, ?_⟩
  · rw [table_fmemopen _ counts hlen]
    exact congrArg some (histogram_congr _ _
      (fun i hi => occurrences_map upperByte i (isLetter_upperByte i hi) s))
  · rw [table_fmemopen _ counts hlen]
    exact congrArg some (histogram_congr _ _
      (fun i hi => occurrences_map lowerByte i (isLetter_lowerByte i hi) s))
  · rw [slot_fmemopen _ counts hlen 0 (by decide)]
    decide
  · rw [table_fmemopen _ counts hlen]
    decide

theorem C5_case_insensitive_witness :
    (∃ t, (count_frequencies (some (fmemopen (bytesOf "Hello"))) (some zeroTable)).table
        = some t ∧
      (count_frequencies (some (fmemopen ((bytesOf "Hello").map upperByte)))
        (some zeroTable)).table = some t ∧
      (count_frequencies (some (fmemopen ((bytesOf "Hello").map lowerByte)))
        (some zeroTable)).table = some t) ∧
    (count_frequencies (some (fmemopen (bytesOf "AAaa"))) (some zeroTable)).slot 0 = some 4 ∧
    (count_frequencies (some (fmemopen (bytesOf "AaAaBbBb"))) (some zeroTable)).table
      = some [4, 4, 0, 0, 0, 0, 0, 0, 0, 0, 0, 0, 0, 0, 0, 0, 0, 0, 0, 0, 0, 0, 0, 0, 0, 0] :=
  C5_case_insensitive (bytesOf "Hello") zeroTable (by decide)

/-! ## C6: the sum of the table -/

set_option maxRecDepth 100000 in
theorem one_slot_per_letter (b : Byte) :
    ((List.range 26).map (fun i => if isLetter i b = true then (1 : Nat) else 0)).sum
      = if isAsciiAlpha b = true then 1 else 0 := by
  revert b
  decide

theorem sum_occurrences (s : List Byte) :
    ((List.range 26).map (fun i => occurrences i s)).sum = s.countP isAsciiAlpha := by
  induction s with
  | nil => simp [occurrences]
  | cons b s ih =>
    have hcons : ∀ i, occurrences i (b :: s)
        = occurrences i s + (if isLetter i b = true then 1 else 0) := by
      intro i
      simp [occurrences, List.countP_cons]
    simp only [hcons, List.sum_map_add, ih, one_slot_per_letter, List.countP_cons]

theorem histogram_of_small (s : List Byte)
    (hfit : ∀ i, i < 26 → occurrences i s < 2147483648) :
    histogram s = (List.range 26).map (fun i => ((occurrences i s : Nat) : Int)) := by
  unfold histogram TABLE_SIZE
  apply List.map_congr_left
  intro i hi
  exact wrapInt_of_small _ (hfit i (by simpa using hi))

/-- C6, as stated, fails on a stream of 2^31 bytes `'Z'`: it has 2147483648 ASCII
letters, and the 26 entries of the table sum to -2147483648. -/
theorem C6_counterexample :
    (List.replicate 2147483648 byte_Z).countP isAsciiAlpha = 2147483648 ∧
    ∃ t, (count_frequencies (some (fmemopen (List.replicate 2147483648 byte_Z)))
        (some zeroTable)).table = some t ∧ t.sum = -2147483648 := by
  constructor
  · rw [List.countP_replicate]
    rfl
  · refine ⟨_, table_fmemopen _ zeroTable (by decide), ?_⟩
    simp only [histogram, occurrences_replicate]
    decide

/-- C6, amended: for every byte string `s` in which no letter occurs 2^31 times or
more (counting both cases together) and every 26-slot table, the call returns and the
sum of the 26 entries equals the number of ASCII alphabetic characters of `s`. -/
theorem C6_sum_is_letter_total (s : List Byte) (counts : List Int)
    (hlen : counts.length = 26)
    (hfit : ∀ i, i < 26 → occurrences i s < 2147483648) :
    ∃ t, (count_frequencies (some (fmemopen s)) (some counts)).table = some t ∧
      t.sum = ((s.countP isAsciiAlpha : Nat) : Int) := by
  refine ⟨histogram s, table_fmemopen s counts hlen, ?_⟩
  rw [histogram_of_small s hfit, ← sum_occurrences, Nat.cast_list_sum, List.map_map]
  rfl

theorem C6_sum_is_letter_total_witness :
    ∃ t, (count_frequencies (some (fmemopen (bytesOf "Hello World! 123.")))
        (some zeroTable)).table = some t ∧
      t.sum = (((bytesOf "Hello World! 123.").countP isAsciiAlpha : Nat) : Int) :=
  C6_sum_is_letter_total (bytesOf "Hello World! 123.") zeroTable (by decide) (by decide)

/-! ## C7: streams without letters -/

theorem occurrences_eq_zero (i : Nat) (hi : i < 26) (s : List Byte)
    (h : ∀ b, b ∈ s → isAsciiAlpha b = false) : occurrences i s = 0 := by
  unfold occurrences
  rw [List.countP_eq_zero]
  intro b hb hl
  have hna := h b hb
  have hlt := b.isLt
  simp only [isLetter, Bool.or_eq_true, beq_iff_eq] at hl
  simp only [isAsciiAlpha, Bool.or_eq_false_iff, Bool.and_eq_false_iff,
    decide_eq_false_iff_not] at hna
  omega

/-- C7: for every byte sequence without an ASCII alphabetic character, and whatever
the incoming contents of the 26-slot table, the call returns with all 26 counters 0;
so it does on the empty stream and on `"123 !@#"`. -/
theorem C7_no_letters_all_zero (s : List Byte) (counts : List Int)
    (hlen : counts.length = 26) (hs : ∀ b, b ∈ s → isAsciiAlpha b = false) :
    (count_frequencies (some (fmemopen s)) (some counts)).table
        = some (List.replicate 26 0) ∧
    (count_frequencies (some (fmemopen [])) (some counts)).table
        = some (List.replicate 26 0) ∧
    (count_frequencies (some (fmemopen (bytesOf "123 !@#"))) (some counts)).table
        = some (List.replicate 26 0) := by
  refine ⟨?_, ?_, ?_⟩
  · rw [table_fmemopen s counts hlen, ← histogram_nil]
    exact congrArg some (histogram_congr _ _
      (fun i hi => by rw [occurrences_eq_zero i hi s hs]; rfl))
  · rw [table_fmemopen _ counts hlen]
    decide
  · rw [table_fmemopen _ counts hlen]
    decide

set_option maxRecDepth 8192 in
theorem C7_no_letters_all_zero_witness :
    (count_frequencies (some (fmemopen [48, 57, 64, 91, 96, 123, 255]))
        (some (List.replicate 26 (-5)))).table = some (List.replicate 26 0) ∧
    (count_frequencies (some (fmemopen [])) (some (List.replicate 26 (-5)))).table
        = some (List.replicate 26 0) ∧
    (count_frequencies (some (fmemopen (bytesOf "123 !@#")))
        (some (List.replicate 26 (-5)))).table = some (List.replicate 26 0) :=
  C7_no_letters_all_zero [48, 57, 64, 91, 96, 123, 255] (List.replicate 26 (-5)) (by decide)
    (by decide)

/-! ## C8: the scenario of the test -/

/-- C8: on the input `"Hello World! 123."` the call returns the table with d = 1,
e = 1, h = 1, l = 3, o = 2, r = 1, w = 1 and 0 for each of the other 19 letters,
whatever the incoming contents of the 26-slot table. -/
theorem C8_hello_world (counts : List Int) (hlen : counts.length = 26) :
    (count_frequencies (some (fmemopen (bytesOf "Hello World! 123."))) (some counts)).table
      = some [0, 0, 0, 1, 1, 0, 0, 1, 0, 0, 0, 3, 0, 0, 2, 0, 0, 1, 0, 0, 0, 0, 1, 0, 0, 0] := by
  rw [table_fmemopen _ counts hlen]
  decide

theorem C8_hello_world_witness :
    (count_frequencies (some (fmemopen (bytesOf "Hello World! 123."))) (some zeroTable)).table
      = some [0, 0, 0, 1, 1, 0, 0, 1, 0, 0, 0, 3, 0, 0, 2, 0, 0, 1, 0, 0, 0, 0, 1, 0, 0, 0] :=
  C8_hello_world zeroTable (by decide)

/-! ## C9: chunking -/

theorem occurrences_append (i : Nat) (s t : List Byte) :
    occurrences i (s ++ t) = occurrences i s + occurrences i t := by
  simp [occurrences, List.countP_append]

/-- C9, as stated, fails for two chunks of 2^30 bytes `'a'` each: slot 0 is 1073741824
on either chunk, and -2147483648 on their concatenation. -/
theorem C9_counterexample :
    (count_frequencies (some (fmemopen (List.replicate 1073741824 byte_a)))
        (some zeroTable)).slot 0 = some 1073741824 ∧
    (count_frequencies (some (fmemopen
        (List.replicate 1073741824 byte_a ++ List.replicate 1073741824 byte_a)))
        (some zeroTable)).slot 0 = some (-2147483648) := by
  have hocc : occurrences 0 (List.replicate 1073741824 byte_a) = 1073741824 := by
    rw [occurrences_replicate]
    rfl
  constructor
  · rw [slot_fmemopen _ _ (by decide) 0 (by decide), hocc]
    decide
  · rw [slot_fmemopen _ _ (by decide) 0 (by decide), occurrences_append, hocc]
    decide

/-- C9, amended: for every two byte sequences `s` and `t`, every 26-slot table and
every index `i` in 0..25 whose letter occurs fewer than 2^31 times in `s ++ t`, the
entry `i` of the table returned on `s ++ t` is the sum of the entry `i` returned on `s`
and the entry `i` returned on `t`. -/
theorem C9_chunks_add (s t : List Byte) (counts : List Int) (hlen : counts.length = 26)
    (i : Nat) (hi : i < 26) (hfit : occurrences i (s ++ t) < 2147483648) :
    ∃ x y : Int,
      (count_frequencies (some (fmemopen s)) (some counts)).slot i = some x ∧
      (count_frequencies (some (fmemopen t)) (some counts)).slot i = some y ∧
      (count_frequencies (some (fmemopen (s ++ t))) (some counts)).slot i = some (x + y) := by
  have hsum := occurrences_append i s t
  refine ⟨((occurrences i s : Nat) : Int), ((occurrences i t : Nat) : Int), ?_, ?_, ?_⟩
  · rw [slot_fmemopen s counts hlen i hi, wrapInt_of_small _ (by omega)]
  · rw [slot_fmemopen t counts hlen i hi, wrapInt_of_small _ (by omega)]
  · rw [slot_fmemopen _ counts hlen i hi, wrapInt_of_small _ hfit, hsum]
    simp

theorem C9_chunks_add_witness :
    ∃ x y : Int,
      (count_frequencies (some (fmemopen (bytesOf "Hello "))) (some zeroTable)).slot 11
        = some x ∧
      (count_frequencies (some (fmemopen (bytesOf "World"))) (some zeroTable)).slot 11
        = some y ∧
      (count_frequencies (some (fmemopen (bytesOf "Hello " ++ bytesOf "World")))
        (some zeroTable)).slot 11 = some (x + y) :=
  C9_chunks_add (bytesOf "Hello ") (bytesOf "World") zeroTable (by decide) 11 (by decide)
    (by decide)

/-! ## C10: the order of the bytes -/

/-- C10: the output is order-independent: for every byte sequence `s`, every
permutation `r` of `s` and every 26-slot table, the call returns the same 26-entry
table on `s` and on `r`. -/
theorem C10_order_independent (s r : List Byte) (counts : List Int)
    (hlen : counts.length = 26) (hperm : List.Perm s r) :
    ∃ t, t.length = 26 ∧
      (count_frequencies (some (fmemopen s)) (some counts)).table = some t ∧
      (count_frequencies (some (fmemopen r)) (some counts)).table = some t := by
  refine ⟨histogram s, histogram_length s, table_fmemopen s counts hlen, ?_⟩
  rw [table_fmemopen r counts hlen]
  exact congrArg some (histogram_congr _ _ (fun i _ => (hperm.countP_eq (isLetter i)).symm))

theorem C10_order_independent_witness :
    ∃ t, t.length = 26 ∧
      (count_frequencies (some (fmemopen (bytesOf "listen"))) (some zeroTable)).table
        = some t ∧
      (count_frequencies (some (fmemopen (bytesOf "silent"))) (some zeroTable)).table
        = some t :=
  C10_order_independent (bytesOf "listen") (bytesOf "silent") zeroTable (by decide)
    (by decide)

/-! ## The states of a counting pass -/

theorem loopState_histogram (p : List Byte) (f : FILE) (q r : List Byte)
    (h : readable f = p ++ r) :
    loopState p.length f (histogram q)
      = some ({ f with pos := f.pos + p.length }, histogram (q ++ p)) := by
  induction p generalizing f q with
  | nil => simp [loopState]
  | cons b p ih =>
    obtain ⟨hg, hrest⟩ := fgetc_of_readable_cons f b (p ++ r) (by simpa using h)
    simp only [List.length_cons, loopState, hg, ne_eq, byte_ne_EOF b, not_false_eq_true,
      if_true, loopBody_histogram]
    rw [ih _ _ hrest, List.append_assoc]
    simp only [List.singleton_append, Option.some.injEq, Prod.mk.injEq, and_true]
    congr 1
    omega

theorem loopState_exit (f : FILE) (cs : List Int) (k : Nat) (h : readable f = []) :
    loopState (k + 1) f cs = none := by
  simp [loopState, fgetc_of_readable_nil f h]

theorem loopState_add (a b : Nat) (f : FILE) (cs : List Int) :
    loopState (a + b) f cs
      = (loopState a f cs).bind (fun st => loopState b st.1 st.2) := by
  induction a generalizing f cs with
  | zero => simp [loopState]
  | succ a ih =>
    rw [Nat.add_right_comm]
    simp only [loopState]
    split
    · split
      · exact ih _ _
      · rfl
    · rfl

theorem whileLoop_of_loopState (k fuel : Nat) (f g : FILE) (cs ds : List Int)
    (h : loopState k f cs = some (g, ds)) :
    whileLoop (k + fuel) f cs = whileLoop fuel g ds := by
  induction k generalizing f cs with
  | zero =>
    simp only [loopState, Option.some.injEq, Prod.mk.injEq] at h
    rw [h.1, h.2, Nat.zero_add]
  | succ k ih =>
    rw [Nat.add_right_comm]
    simp only [loopState] at h
    simp only [whileLoop]
    split at h
    · rename_i hne
      rw [if_pos hne]
      split at h
      · rename_i c1 hb
        exact ih _ _ h
      · exact absurd h (by simp)
    · exact absurd h (by simp)

theorem readable_at (s p r : List Byte) (h : s = p ++ r) (fa : Option Nat)
    (hfa : fa = none ∨ fa = some s.length) :
    readable { data := s, pos := p.length, failAt := fa } = r := by
  subst h
  rcases hfa with hfa | hfa
  · subst hfa
    simp [readable]
  · subst hfa
    simp [readable]

theorem pass_state (s p r : List Byte) (h : s = p ++ r) :
    loopState p.length (fmemopen s) (List.replicate 26 0)
      = some (atOffset (fmemopen s) p.length, histogram p) := by
  have hr : readable (fmemopen s) = p ++ r := by rw [readable_fmemopen, h]
  rw [← histogram_nil, loopState_histogram p (fmemopen s) [] r hr]
  simp [fmemopen, atOffset]

theorem fgetc_at_end (f : FILE) : fgetc (atOffset f f.data.length) = (EOF, atOffset f f.data.length) := by
  unfold fgetc atOffset
  split
  · rfl
  · simp

theorem drained_fmemopen (s : List Byte) :
    drained (fmemopen s) = atOffset (fmemopen s) s.length := by
  unfold drained
  rw [readable_fmemopen]
  simp [fmemopen, atOffset]

/-! ## C11: termination and full consumption -/

/-- C11: for every stream of `n` bytes `s` and every 26-slot table, the call returns
with the read position at `n`, where `fgetc` finds no byte left; the loop ends for
every budget of more than `n` reads; its run number `k + 1` (for `k < n`) starts at
position `k` and reads the byte `s[k]`, moving to position `k + 1`; and the loop has
left before a run number `n + 1`. -/
theorem C11_stream_fully_consumed (s : List Byte) (counts : List Int)
    (hlen : counts.length = 26) :
    count_frequencies (some (fmemopen s)) (some counts)
      = Outcome.returned (some (atOffset (fmemopen s) s.length)) (some (histogram s)) ∧
    fgetc (atOffset (fmemopen s) s.length) = (EOF, atOffset (fmemopen s) s.length) ∧
    zeroLoop counts = some (List.replicate 26 0) ∧
    (∀ fuel, s.length < fuel →
      whileLoop fuel (fmemopen s) (List.replicate 26 0)
        = Outcome.returned (some (atOffset (fmemopen s) s.length)) (some (histogram s))) ∧
    (∀ k (hk : k < s.length), ∃ cs,
      loopState k (fmemopen s) (List.replicate 26 0)
        = some (atOffset (fmemopen s) k, cs) ∧
      fgetc (atOffset (fmemopen s) k)
        = ((s[k].val : Int), atOffset (fmemopen s) (k + 1))) ∧
    loopState (s.length + 1) (fmemopen s) (List.replicate 26 0) = none := by
  refine ⟨?_, fgetc_at_end (fmemopen s), zeroLoop_eq counts hlen, ?_, ?_, ?_⟩
  · rw [count_frequencies_eq _ _ hlen, drained_fmemopen, readable_fmemopen]
  · intro fuel hfuel
    have h := whileLoop_histogram fuel (fmemopen s) []
      (by rw [readable_fmemopen]; exact hfuel)
    rw [histogram_nil, drained_fmemopen, readable_fmemopen] at h
    simpa using h
  · intro k hk
    have hp : (s.take k).length = k := by
      rw [List.length_take]
      omega
    have h := pass_state s (s.take k) (s.drop k) (List.take_append_drop k s).symm
    rw [hp] at h
    refine ⟨_, h, ?_⟩
    simp [fgetc, atOffset, fmemopen, List.getElem?_eq_getElem hk]
  · rw [loopState_add]
    have h := pass_state s s [] (by simp)
    rw [h]
    exact loopState_exit _ _ 0 (readable_at s s [] (by simp) none (Or.inl rfl))

theorem C11_stream_fully_consumed_witness :
    count_frequencies (some (fmemopen (bytesOf "Hi!"))) (some zeroTable)
      = Outcome.returned (some (atOffset (fmemopen (bytesOf "Hi!")) (bytesOf "Hi!").length))
          (some (histogram (bytesOf "Hi!"))) ∧
    fgetc (atOffset (fmemopen (bytesOf "Hi!")) (bytesOf "Hi!").length)
      = (EOF, atOffset (fmemopen (bytesOf "Hi!")) (bytesOf "Hi!").length) ∧
    zeroLoop zeroTable = some (List.replicate 26 0) ∧
    (∀ fuel, (bytesOf "Hi!").length < fuel →
      whileLoop fuel (fmemopen (bytesOf "Hi!")) (List.replicate 26 0)
        = Outcome.returned (some (atOffset (fmemopen (bytesOf "Hi!")) (bytesOf "Hi!").length))
            (some (histogram (bytesOf "Hi!")))) ∧
    (∀ k (hk : k < (bytesOf "Hi!").length), ∃ cs,
      loopState k (fmemopen (bytesOf "Hi!")) (List.replicate 26 0)
        = some (atOffset (fmemopen (bytesOf "Hi!")) k, cs) ∧
      fgetc (atOffset (fmemopen (bytesOf "Hi!")) k)
        = ((((bytesOf "Hi!")[k]).val : Int), atOffset (fmemopen (bytesOf "Hi!")) (k + 1))) ∧
    loopState ((bytesOf "Hi!").length + 1) (fmemopen (bytesOf "Hi!")) (List.replicate 26 0)
      = none :=
  C11_stream_fully_consumed (bytesOf "Hi!") zeroTable (by decide)

/-! ## C12 and C13: the entries along a pass -/

theorem histogram_get (s : List Byte) (i : Nat) (hi : i < 26) :
    (histogram s).get? i = some (wrapInt (occurrences i s)) := by
  simp [histogram, TABLE_SIZE, List.getElem?_range, hi]

theorem occurrences_le_of_prefix (i : Nat) (p s : List Byte) (h : p <+: s) :
    occurrences i p ≤ occurrences i s := by
  obtain ⟨r, hr⟩ := h
  rw [← hr, occurrences_append]
  omega

theorem pass_state_of_prefix (s p : List Byte) (h : p <+: s) :
    loopState p.length (fmemopen s) (List.replicate 26 0)
      = some (atOffset (fmemopen s) p.length, histogram p) := by
  obtain ⟨r, hr⟩ := h
  exact pass_state s p r hr.symm

/-- C12, as stated, fails on a stream of 2^31 bytes `'a'`: after the prefix of 2^31 - 1
bytes slot 0 holds 2147483647, the loop body run on that table for one more `'a'` gives
the table of the whole stream, and there slot 0 holds -2147483648. -/
theorem C12_counterexample :
    (List.replicate 2147483647 byte_a <+: List.replicate 2147483647 byte_a ++ [byte_a]) ∧
    (histogram (List.replicate 2147483647 byte_a)).get? 0 = some 2147483647 ∧
    loopBody (byte_a.val : Int) (histogram (List.replicate 2147483647 byte_a))
      = some (histogram (List.replicate 2147483647 byte_a ++ [byte_a])) ∧
    (count_frequencies (some (fmemopen (List.replicate 2147483647 byte_a ++ [byte_a])))
        (some zeroTable)).table
      = some (histogram (List.replicate 2147483647 byte_a ++ [byte_a])) ∧
    (histogram (List.replicate 2147483647 byte_a ++ [byte_a])).get? 0
      = some (-2147483648) := by
  have hocc : occurrences 0 (List.replicate 2147483647 byte_a) = 2147483647 := by
    rw [occurrences_replicate]
    rfl
  have hone : occurrences 0 [byte_a] = 1 := by decide
  refine ⟨List.prefix_append _ _, ?_, loopBody_histogram _ _,
    table_fmemopen _ zeroTable (by decide), ?_⟩
  · rw [histogram_get _ 0 (by decide), hocc]
    decide
  · rw [histogram_get _ 0 (by decide), occurrences_append, hocc, hone]
    decide

/-- C12, amended: all entries are 0 when counting begins, and for every byte sequence
`s`, every index `i` in 0..25 whose letter occurs fewer than 2^31 times in `s`, and
every step of the pass on `s` (the loop body run for the byte `b` that follows a prefix
`p` of `s`), entry `i` is at least 0 before the step, is not decreased by the step, and
is at most entry `i` of the table the call returns. -/
theorem C12_entries_non_decreasing (s p : List Byte) (b : Byte) (counts : List Int)
    (hlen : counts.length = 26) (i : Nat) (hi : i < 26) (hpre : p ++ [b] <+: s)
    (hfit : occurrences i s < 2147483648) :
    zeroLoop counts = some (List.replicate 26 0) ∧
    ∃ tp tq ts x y z,
      loopState p.length (fmemopen s) (List.replicate 26 0)
        = some (atOffset (fmemopen s) p.length, tp) ∧
      loopBody (b.val : Int) tp = some tq ∧
      loopState (p.length + 1) (fmemopen s) (List.replicate 26 0)
        = some (atOffset (fmemopen s) (p.length + 1), tq) ∧
      (count_frequencies (some (fmemopen s)) (some counts)).table = some ts ∧
      tp.get? i = some x ∧ tq.get? i = some y ∧ ts.get? i = some z ∧
      0 ≤ x ∧ x ≤ y ∧ y ≤ z := by
  have hp : p <+: s := (List.prefix_append p [b]).trans hpre
  have h1 := occurrences_le_of_prefix i _ _ hpre
  have h2 := occurrences_le_of_prefix i _ _ (List.prefix_append p [b])
  have hstate := pass_state_of_prefix s (p ++ [b]) hpre
  rw [List.length_append, List.length_singleton] at hstate
  refine ⟨zeroLoop_eq counts hlen, histogram p, histogram (p ++ [b]), histogram s,
    ((occurrences i p : Nat) : Int), ((occurrences i (p ++ [b]) : Nat) : Int),
    ((occurrences i s : Nat) : Int), pass_state_of_prefix s p hp, loopBody_histogram p b,
    hstate, table_fmemopen s counts hlen, ?_, ?_, ?_, ?_, ?_, ?_⟩
  · rw [histogram_get _ i hi, wrapInt_of_small _ (by omega)]
  · rw [histogram_get _ i hi, wrapInt_of_small _ (by omega)]
  · rw [histogram_get _ i hi, wrapInt_of_small _ hfit]
  · omega
  · exact_mod_cast h2
  · exact_mod_cast h1

theorem C12_entries_non_decreasing_witness :
    zeroLoop zeroTable = some (List.replicate 26 0) ∧
    ∃ tp tq ts x y z,
      loopState (bytesOf "He").length (fmemopen (bytesOf "Hello")) (List.replicate 26 0)
        = some (atOffset (fmemopen (bytesOf "Hello")) (bytesOf "He").length, tp) ∧
      loopBody (((108 : Byte).val : Nat) : Int) tp = some tq ∧
      loopState ((bytesOf "He").length + 1) (fmemopen (bytesOf "Hello"))
          (List.replicate 26 0)
        = some (atOffset (fmemopen (bytesOf "Hello")) ((bytesOf "He").length + 1), tq) ∧
      (count_frequencies (some (fmemopen (bytesOf "Hello"))) (some zeroTable)).table
        = some ts ∧
      tp.get? 11 = some x ∧ tq.get? 11 = some y ∧ ts.get? 11 = some z ∧
      0 ≤ x ∧ x ≤ y ∧ y ≤ z :=
  C12_entries_non_decreasing (bytesOf "Hello") (bytesOf "He") 108 zeroTable (by decide) 11
    (by decide) (by decide) (by decide)

/-- C13, as stated, fails on a stream of 2^31 + 1 bytes `'Z'`: the call returns with
slot 25 at -2147483647, which is negative. -/
theorem C13_counterexample :
    ∃ v, (count_frequencies (some (fmemopen (List.replicate 2147483649 byte_Z)))
        (some zeroTable)).slot 25 = some v ∧ v < 0 := by
  have hocc : occurrences 25 (List.replicate 2147483649 byte_Z) = 2147483649 := by
    rw [occurrences_replicate]
    rfl
  refine ⟨-2147483647, ?_, by decide⟩
  rw [slot_fmemopen _ _ (by decide) 25 (by decide), hocc]
  decide

/-- C13, amended: for every byte stream `s`, every incoming content of the 26-slot
table and every index `i` in 0..25 whose letter occurs fewer than 2^31 times in `s`,
entry `i` is greater than or equal to 0 after every step of the pass (in the state
reached once any prefix `p` of `s` is read) and when the call returns. -/
theorem C13_entries_non_negative (s p : List Byte) (counts : List Int)
    (hlen : counts.length = 26) (i : Nat) (hi : i < 26) (hpre : p <+: s)
    (hfit : occurrences i s < 2147483648) :
    ∃ tp ts x z,
      loopState p.length (fmemopen s) (List.replicate 26 0)
        = some (atOffset (fmemopen s) p.length, tp) ∧
      (count_frequencies (some (fmemopen s)) (some counts)).table = some ts ∧
      tp.get? i = some x ∧ ts.get? i = some z ∧ 0 ≤ x ∧ 0 ≤ z := by
  have h1 := occurrences_le_of_prefix i _ _ hpre
  refine ⟨histogram p, histogram s, ((occurrences i p : Nat) : Int),
    ((occurrences i s : Nat) : Int), pass_state_of_prefix s p hpre,
    table_fmemopen s counts hlen, ?_, ?_, ?_, ?_⟩
  · rw [histogram_get _ i hi, wrapInt_of_small _ (by omega)]
  · rw [histogram_get _ i hi, wrapInt_of_small _ hfit]
  · omega
  · omega

theorem C13_entries_non_negative_witness :
    ∃ tp ts x z,
      loopState (bytesOf "Wor").length (fmemopen (bytesOf "World")) (List.replicate 26 0)
        = some (atOffset (fmemopen (bytesOf "World")) (bytesOf "Wor").length, tp) ∧
      (count_frequencies (some (fmemopen (bytesOf "World")))
        (some (List.replicate 26 (-9)))).table = some ts ∧
      tp.get? 14 = some x ∧ ts.get? 14 = some z ∧ 0 ≤ x ∧ 0 ≤ z :=
  C13_entries_non_negative (bytesOf "World") (bytesOf "Wor") (List.replicate 26 (-9))
    (by decide) 14 (by decide) (by decide) (by decide)

/-! ## C14: a read that fails -/

theorem readable_failingStream (s : List Byte) (k : Nat) :
    readable (failingStream s k) = s.take k := by
  simp [readable, failingStream]

theorem readable_at_failure (s : List Byte) (k : Nat) :
    readable (atOffset (failingStream s k) k) = [] := by
  simp [readable, failingStream, atOffset]

theorem drained_failingStream (s : List Byte) (k : Nat) (hk : k ≤ s.length) :
    drained (failingStream s k) = atOffset (failingStream s k) k := by
  unfold drained
  rw [readable_failingStream, List.length_take, Nat.min_eq_left hk]
  simp [failingStream, atOffset]

/-- C14: a read failure is treated as end-of-stream: on a stream over the bytes `s`
whose read at offset `k` fails (`fgetc` returns `EOF` there), the call returns, as it
does at a true end, with the stream at offset `k`; the body has run `k` times and the
loop has left at the failing read; the table is the one of the bytes read before it,
that is the table the call returns on the stream that ends after those `k` bytes, so
the bytes after offset `k` are not counted. -/
theorem C14_read_failure_ends_pass (s : List Byte) (counts : List Int)
    (hlen : counts.length = 26) (k : Nat) (hk : k ≤ s.length) :
    fgetc (atOffset (failingStream s k) k) = (EOF, atOffset (failingStream s k) k) ∧
    count_frequencies (some (failingStream s k)) (some counts)
      = Outcome.returned (some (atOffset (failingStream s k) k))
          (some (histogram (s.take k))) ∧
    loopState k (failingStream s k) (List.replicate 26 0)
      = some (atOffset (failingStream s k) k, histogram (s.take k)) ∧
    loopState (k + 1) (failingStream s k) (List.replicate 26 0) = none ∧
    (count_frequencies (some (fmemopen (s.take k))) (some counts)).table
      = some (histogram (s.take k)) := by
  have hlk : (s.take k).length = k := by
    rw [List.length_take, Nat.min_eq_left hk]
  have hstate : loopState k (failingStream s k) (List.replicate 26 0)
      = some (atOffset (failingStream s k) k, histogram (s.take k)) := by
    have h := loopState_histogram (s.take k) (failingStream s k) [] []
      (by rw [readable_failingStream, List.append_nil])
    rw [hlk, histogram_nil] at h
    rw [h]
    simp [failingStream, atOffset]
  refine ⟨fgetc_of_readable_nil _ (readable_at_failure s k), ?_, hstate, ?_,
    table_fmemopen _ counts hlen⟩
  · rw [count_frequencies_eq _ _ hlen, drained_failingStream s k hk,
      readable_failingStream]
  · rw [loopState_add, hstate]
    exact loopState_exit _ _ 0 (readable_at_failure s k)

theorem C14_read_failure_ends_pass_witness :
    fgetc (atOffset (failingStream (bytesOf "abcabc") 4) 4)
      = (EOF, atOffset (failingStream (bytesOf "abcabc") 4) 4) ∧
    count_frequencies (some (failingStream (bytesOf "abcabc") 4)) (some zeroTable)
      = Outcome.returned (some (atOffset (failingStream (bytesOf "abcabc") 4) 4))
          (some (histogram ((bytesOf "abcabc").take 4))) ∧
    loopState 4 (failingStream (bytesOf "abcabc") 4) (List.replicate 26 0)
      = some (atOffset (failingStream (bytesOf "abcabc") 4) 4,
          histogram ((bytesOf "abcabc").take 4)) ∧
    loopState (4 + 1) (failingStream (bytesOf "abcabc") 4) (List.replicate 26 0) = none ∧
    (count_frequencies (some (fmemopen ((bytesOf "abcabc").take 4))) (some zeroTable)).table
      = some (histogram ((bytesOf "abcabc").take 4)) :=
  C14_read_failure_ends_pass (bytesOf "abcabc") zeroTable (by decide) 4 (by decide)

/-! ## C15: the index of the increment -/

theorem loopBody_total (b : Byte) (cs : List Int) (hlen : cs.length = 26) :
    ∃ ds, loopBody (b.val : Int) cs = some ds ∧ ds.length = 26 := by
  unfold loopBody
  cases h : isalpha (b.val : Int) with
  | false => exact ⟨cs, by simp, hlen⟩
  | true =>
    obtain ⟨k, hk, hidx, _⟩ := alpha_index b h
    have hkl : k < cs.length := by omega
    have hload : load cs (k : Int) = some cs[k] := by
      have h1 : (0 : Int) ≤ (k : Int) ∧ (k : Int) < (cs.length : Int) := by omega
      simp [load, h1, List.getElem?_eq_getElem hkl]
    refine ⟨cs.set k (wrapInt (cs[k] + 1)), ?_, by simp [hlen]⟩
    simp only [if_true, hidx, increment, hload]
    exact store_in_range _ _ _ hkl

/-- C15: the bucket index is in range: for every value `c` in 0..255 that the
alphabetic test accepts, `0 <= tolower(c) - 'a' <= 25`; so on every 26-slot table the
loop body does its read and write inside the table and leaves a 26-slot table, and
for every byte sequence the call never ends in the out-of-bounds fault. -/
theorem C15_bucket_index_in_range (b : Byte) (cs : List Int) (hlen : cs.length = 26)
    (s : List Byte) :
    (isalpha (b.val : Int) = true →
      0 ≤ tolower (b.val : Int) - chr_a ∧ tolower (b.val : Int) - chr_a ≤ 25) ∧
    (∃ ds, loopBody (b.val : Int) cs = some ds ∧ ds.length = 26) ∧
    count_frequencies (some (fmemopen s)) (some cs) ≠ Outcome.outOfBounds := by
  refine ⟨?_, loopBody_total b cs hlen, ?_⟩
  · intro ha
    obtain ⟨k, hk, hidx, _⟩ := alpha_index b ha
    rw [hidx]
    omega
  · rw [count_frequencies_eq _ _ hlen]
    simp

theorem C15_bucket_index_in_range_witness :
    (isalpha (((122 : Byte).val : Nat) : Int) = true →
      0 ≤ tolower (((122 : Byte).val : Nat) : Int) - chr_a ∧
        tolower (((122 : Byte).val : Nat) : Int) - chr_a ≤ 25) ∧
    (∃ ds, loopBody (((122 : Byte).val : Nat) : Int) (List.replicate 26 3) = some ds ∧
      ds.length = 26) ∧
    count_frequencies (some (fmemopen (bytesOf "Zz"))) (some (List.replicate 26 3))
      ≠ Outcome.outOfBounds :=
  C15_bucket_index_in_range 122 (List.replicate 26 3) (by decide) (bytesOf "Zz")

/-! ## C16: the size of a counter -/

theorem wrapInt_le (n : Nat) : wrapInt (n : Int) ≤ n := by
  unfold wrapInt
  omega

theorem occurrences_le_length (i : Nat) (s : List Byte) : occurrences i s ≤ s.length :=
  List.countP_le_length _

/-- C16: no counter exceeds the number of bytes read: for every byte sequence `s` of
length `n`, every 26-slot table and every index `i` in 0..25, `counts[i]` is at most `n`
when the call returns; and when `n < 2^31` it is the exact number of occurrences of
letter `i`, and before every run of the loop body every slot holds a value `v` with
`v + 1 <= INT_MAX`, so that no increment overflows. -/
theorem C16_counter_at_most_length (s : List Byte) (counts : List Int)
    (hlen : counts.length = 26) (i : Nat) (hi : i < 26) :
    ∃ x, (count_frequencies (some (fmemopen s)) (some counts)).slot i = some x ∧
      x ≤ (s.length : Int) ∧
      (s.length < 2147483648 →
        x = ((occurrences i s : Nat) : Int) ∧
        ∀ p b, p ++ [b] <+: s → ∃ tp,
          loopState p.length (fmemopen s) (List.replicate 26 0)
            = some (atOffset (fmemopen s) p.length, tp) ∧
          ∀ j, j < 26 → ∃ v, tp.get? j = some v ∧ v + 1 ≤ INT_MAX ∧
            wrapInt (v + 1) = v + 1) := by
  have hocc := occurrences_le_length i s
  refine ⟨wrapInt (occurrences i s), slot_fmemopen s counts hlen i hi, ?_, ?_⟩
  · have := wrapInt_le (occurrences i s)
    omega
  · intro hn
    refine ⟨wrapInt_of_small _ (by omega), ?_⟩
    intro p b hpre
    have hp : p <+: s := (List.prefix_append p [b]).trans hpre
    have hlt : p.length + 1 ≤ s.length := by
      have := hpre.length_le
      simpa using this
    refine ⟨histogram p, pass_state_of_prefix s p hp, ?_⟩
    intro j hj
    have hjp := occurrences_le_length j p
    refine ⟨((occurrences j p : Nat) : Int), ?_, ?_, ?_⟩
    · rw [histogram_get _ j hj, wrapInt_of_small _ (by omega)]
    · unfold INT_MAX
      omega
    · unfold wrapInt
      omega

theorem C16_counter_at_most_length_witness :
    ∃ x, (count_frequencies (some (fmemopen (bytesOf "banana"))) (some zeroTable)).slot 0
        = some x ∧
      x ≤ ((bytesOf "banana").length : Int) ∧
      ((bytesOf "banana").length < 2147483648 →
        x = ((occurrences 0 (bytesOf "banana") : Nat) : Int) ∧
        ∀ p b, p ++ [b] <+: bytesOf "banana" → ∃ tp,
          loopState p.length (fmemopen (bytesOf "banana")) (List.replicate 26 0)
            = some (atOffset (fmemopen (bytesOf "banana")) p.length, tp) ∧
          ∀ j, j < 26 → ∃ v, tp.get? j = some v ∧ v + 1 ≤ INT_MAX ∧
            wrapInt (v + 1) = v + 1) :=
  C16_counter_at_most_length (bytesOf "banana") zeroTable (by decide) 0 (by decide)

/-! ## C17: the byte 0xFF -/

/-- C17: a data byte 0xFF is not taken for the end of the stream: `fgetc` delivers it
as the `int` 255, which differs from `EOF`; for every byte sequence with a byte 0xFF
in it (`p`, then 0xFF, then `q`) and every 26-slot table, the loop runs its body for
the 0xFF byte and goes on at the next offset, the call returns with the stream read to
its end, and the table is the table of `p ++ q`: the letters that follow the 0xFF
byte are counted like those before it. -/
theorem C17_byte_FF_is_not_EOF (p q : List Byte) (counts : List Int)
    (hlen : counts.length = 26) :
    ((byte_FF.val : Nat) : Int) = 255 ∧ ((byte_FF.val : Nat) : Int) ≠ EOF ∧
    fgetc (atOffset (fmemopen (p ++ byte_FF :: q)) p.length)
      = (255, atOffset (fmemopen (p ++ byte_FF :: q)) (p.length + 1)) ∧
    loopState (p.length + 1) (fmemopen (p ++ byte_FF :: q)) (List.replicate 26 0)
      = some (atOffset (fmemopen (p ++ byte_FF :: q)) (p.length + 1), histogram p) ∧
    count_frequencies (some (fmemopen (p ++ byte_FF :: q))) (some counts)
      = Outcome.returned
          (some (atOffset (fmemopen (p ++ byte_FF :: q)) (p ++ byte_FF :: q).length))
          (some (histogram (p ++ q))) ∧
    (count_frequencies (some (fmemopen (p ++ q))) (some counts)).table
      = some (histogram (p ++ q)) := by
  have hFF : ∀ j, j < 26 → isLetter j byte_FF = false := by decide
  have hsame : ∀ l : List Byte, histogram (l ++ [byte_FF]) = histogram l := by
    intro l
    apply histogram_congr
    intro j hj
    rw [occurrences_snoc, hFF j hj]
    simp
  refine ⟨by decide, by decide, ?_, ?_, ?_, table_fmemopen _ counts hlen⟩
  · have hget : (p ++ byte_FF :: q)[p.length]? = some byte_FF := by
      rw [List.getElem?_append_right (le_refl _)]
      simp
    simp only [fgetc, atOffset, fmemopen, List.get?_eq_getElem?, hget]
    simp only [reduceCtorEq, if_false, Prod.mk.injEq, and_true]
    decide
  · have h := pass_state (p ++ byte_FF :: q) (p ++ [byte_FF]) q (by simp)
    rw [List.length_append, List.length_singleton, hsame] at h
    exact h
  · rw [count_frequencies_eq _ _ hlen, drained_fmemopen, readable_fmemopen]
    have hh : histogram (p ++ byte_FF :: q) = histogram (p ++ q) := by
      apply histogram_congr
      intro j hj
      rw [occurrences_append, occurrences_append]
      simp [occurrences, List.countP_cons, hFF j hj]
    rw [hh]

theorem C17_byte_FF_is_not_EOF_witness :
    ((byte_FF.val : Nat) : Int) = 255 ∧ ((byte_FF.val : Nat) : Int) ≠ EOF ∧
    fgetc (atOffset (fmemopen (bytesOf "ab" ++ byte_FF :: bytesOf "cd")) (bytesOf "ab").length)
      = (255, atOffset (fmemopen (bytesOf "ab" ++ byte_FF :: bytesOf "cd"))
          ((bytesOf "ab").length + 1)) ∧
    loopState ((bytesOf "ab").length + 1) (fmemopen (bytesOf "ab" ++ byte_FF :: bytesOf "cd"))
        (List.replicate 26 0)
      = some (atOffset (fmemopen (bytesOf "ab" ++ byte_FF :: bytesOf "cd"))
          ((bytesOf "ab").length + 1), histogram (bytesOf "ab")) ∧
    count_frequencies (some (fmemopen (bytesOf "ab" ++ byte_FF :: bytesOf "cd")))
        (some zeroTable)
      = Outcome.returned
          (some (atOffset (fmemopen (bytesOf "ab" ++ byte_FF :: bytesOf "cd"))
            (bytesOf "ab" ++ byte_FF :: bytesOf "cd").length))
          (some (histogram (bytesOf "ab" ++ bytesOf "cd"))) ∧
    (count_frequencies (some (fmemopen (bytesOf "ab" ++ bytesOf "cd")))
        (some zeroTable)).table
      = some (histogram (bytesOf "ab" ++ bytesOf "cd")) :=
  C17_byte_FF_is_not_EOF (bytesOf "ab") (bytesOf "cd") zeroTable (by decide)
